import Mathlib

/-!
Verification development for the provable-value / witness-generation core
(`src/lib/provable.ts`).  The TypeScript source is embedded shallowly:

* backend field elements become the inductive `Field` (a constant with a
  known value, or a circuit variable identified by its allocation index);
* the process-wide snark context stack, the memoization record, the
  variable store and the stream of backend randomness are gathered into an
  explicit state record `St`, and every stateful operation becomes a
  function `St → result × St` (fallible ones return `Except Err _`);
* the provable type descriptor interface becomes the structure
  `ProvableType` (with the optional JSON / hash-input capabilities in
  `ProvableExtended`, an `Option` field modelling the duck-typed probe).

Parts of the repository that the embedded file imports but that are not
part of this core (the `Context` implementation, `proof_system`, the
`Snarky` backend primitives, `bytesToBigInt`) are modelled from the
specification; each such definition carries a doc comment saying so.
-/

namespace Snarkyjs

/-- A backend field element: either a constant with a concretely known
numeric value, or a circuit variable whose value is deferred to the prover
and identified by its allocation index. -/
inductive Field where
  | const (v : Nat)
  | varIdx (i : Nat)
deriving DecidableEq, Repr

/-- Resolve a field element to its numeric value, reading variables from
the prover valuation `env` (variable index `i` holds `env.getD i 0`). -/
def fieldValue (env : List Nat) : Field → Nat
  | .const v => v
  | .varIdx i => env.getD i 0

/-- Modelled from the spec: `x.toConstant()` on a field element reads the
concrete prover value and returns it detached from any variable, so a
cached value can never silently depend on a stale variable. -/
def Field.toConstant (env : List Nat) (x : Field) : Field :=
  .const (fieldValue env x)

/-- Errors surfaced by the embedded operations: a failing type-specific
`check`, or an arbitrary error thrown by user code (`compute`). -/
inductive Err where
  | checkFailed
  | userError (msg : String)
deriving DecidableEq, Repr

/-- Modelled from the spec: one execution context frame of the
process-wide stack, with the four boolean mode flags. -/
structure SnarkContext where
  inCheckedComputation : Bool := false
  inProver : Bool := false
  inAnalyze : Bool := false
  inWitnessBlock : Bool := false
deriving DecidableEq, Repr

/-- The ambient frame observed when no frame has been entered: all mode
flags are off. -/
def SnarkContext.empty : SnarkContext := {}

/-- One slot of the memoization record: the serialized field elements
(stored as constants) together with the auxiliary data. -/
structure MemoEntry (A : Type) where
  fields : List Field
  aux : A
deriving DecidableEq, Repr

/-- The memoization record: an ordered growable sequence of optional
slots, a cursor, and the lazily-sampled blinding value. -/
structure MemoCtx (A : Type) where
  memoized : List (Option (MemoEntry A))
  currentIndex : Nat
  blindingValue : Option Field
deriving DecidableEq, Repr

/-- The explicit global state threaded through every operation:
the snark context stack, the backend variable allocator (`nextVar`) and
prover valuation (`varValues`), the optional active memoization record,
and the stream of backend randomness consumed by `Field.random`. -/
structure St (A : Type) where
  ctxStack : List SnarkContext
  nextVar : Nat
  varValues : List Nat
  memo : Option (MemoCtx A)
  rand : List Nat
deriving DecidableEq, Repr

/-- Modelled from the spec: `snarkContext.get()` reads the current (top)
frame; with no active frame the ambient all-off frame is observed. -/
def currentCtx (s : St A) : SnarkContext :=
  s.ctxStack.headD SnarkContext.empty

/-- Modelled from the spec: the `inCheckedComputation()` mode predicate
reads the current frame, never a separately cached flag. -/
def inCheckedComputationS (s : St A) : Bool :=
  (currentCtx s).inCheckedComputation

/-- Modelled from the spec: the `inAnalyze` flag of the current frame. -/
def inAnalyzeS (s : St A) : Bool :=
  (currentCtx s).inAnalyze

/-- Modelled from the spec: `snarkContext.enter(frame)` pushes a frame on
the stack. -/
def pushCtx (c : SnarkContext) (s : St A) : St A :=
  { s with ctxStack := c :: s.ctxStack }

/-- Modelled from the spec: `snarkContext.leave(id)` pops the most
recently entered frame, restoring the prior one. -/
def popCtx (s : St A) : St A :=
  { s with ctxStack := s.ctxStack.tail }

/-- The provable type descriptor contract (`Provable<T>` with auxiliary
data of type `A`): fixed field-element count, serialization to fields and
auxiliary data, reconstruction, and the type-specific constraint check
(modelled as a boolean: `false` means `check` threw). `fromFields` takes
an optional auxiliary argument, mirroring `fromFields(fields, aux?)`. -/
structure ProvableType (T : Type) (A : Type) where
  sizeInFields : Nat
  toFields : T → List Field
  toAuxiliary : Option T → A
  fromFields : List Field → Option A → T
  check : T → Bool

/-- Modelled from the spec: the hash-input encoding accumulated by
`toInput`, a monoid of field and packed-field sequences. -/
structure HashInputData where
  fields : List Field
  packed : List (Field × Nat)
deriving DecidableEq, Repr

/-- Modelled from the spec: the empty hash input. -/
def HashInputData.empty : HashInputData := ⟨[], []⟩

/-- Modelled from the spec: `HashInput.append` concatenates the two
encodings componentwise. -/
def HashInputData.append (a b : HashInputData) : HashInputData :=
  ⟨a.fields ++ b.fields, a.packed ++ b.packed⟩

/-- A descriptor extended with the optional capabilities, each an
`Option` mirroring the duck-typed probe for the method on the element
descriptor (`'toJSON' in type` and so on). -/
structure ProvableExtended (T : Type) (A : Type) (J : Type) extends ProvableType T A where
  toJSON? : Option (T → J)
  fromJSON? : Option (J → T)
  toInput? : Option (T → HashInputData)

/-- `clone(type, value)`: canonicalize a value by round-tripping it
through `toFields` / `toAuxiliary` / `fromFields` (provable.ts lines
218-222). -/
def clone (pt : ProvableType T A) (value : T) : T :=
  pt.fromFields (pt.toFields value) (some (pt.toAuxiliary (some value)))

/-- Modelled from the spec: the backend variable-allocation primitive
`exists(arity, proverCallback)`.  Given the field values the prover
callback produced, it allocates exactly `arity` fresh circuit variables,
binds each to the corresponding resolved value, and returns the
variables. -/
def allocVars (arity : Nat) (values : List Field) (s : St A) : List Field × St A :=
  let vars := (List.range arity).map (fun i => Field.varIdx (s.nextVar + i))
  let vals := (List.range arity).map
    (fun i => fieldValue s.varValues (values.getD i (Field.const 0)))
  (vars, { s with nextVar := s.nextVar + arity, varValues := s.varValues ++ vals })

namespace Provable

/-- `Provable.witness(type, compute)` (provable.ts lines 55-100).
Outside checked computation, or when the current frame already has
`inWitnessBlock` set, the callback runs directly and its result is
cloned.  Otherwise a nested frame flagged `inWitnessBlock` is entered,
the backend allocation primitive runs the prover callback (which
serializes the computed value), the frame is left on every exit path
(the `try/finally`), the value is rebuilt from the fresh variables and
recomputed auxiliary data, and `check` is invoked on it. -/
def witness (pt : ProvableType T A) (compute : St A → Except Err T × St A)
    (s : St A) : Except Err T × St A :=
  let ctx := currentCtx s
  if !inCheckedComputationS s || ctx.inWitnessBlock then
    let (r, s') := compute s
    (r.map (fun v => clone pt v), s')
  else
    let s1 := pushCtx { ctx with inWitnessBlock := true } s
    match compute s1 with
    | (.error e, s2) => (.error e, popCtx s2)
    | (.ok proverValue, s2) =>
      let flds := pt.toFields proverValue
      let (vars, s3) := allocVars pt.sizeInFields flds s2
      let s4 := popCtx s3
      let aux := pt.toAuxiliary (some proverValue)
      let value := pt.fromFields vars (some aux)
      if pt.check value then (.ok value, s4) else (.error .checkFailed, s4)

end Provable

/-- Set slot `i` of a memoization array, extending the array with empty
slots when the index lies beyond the current length (a JavaScript array
assignment `memoized[i] = v`). -/
def listSetPad (l : List (Option α)) (i : Nat) (v : α) : List (Option α) :=
  match l, i with
  | [], 0 => [some v]
  | [], n + 1 => none :: listSetPad [] n v
  | _ :: t, 0 => some v :: t
  | x :: t, n + 1 => x :: listSetPad t n v

/-- Advance the cursor of the live memoization record by one
(`context.currentIndex += 1`). -/
def advanceCursor (s : St A) : St A :=
  { s with memo := s.memo.map (fun c => { c with currentIndex := c.currentIndex + 1 }) }

/-- Store an entry at slot `i` of the live memoization record
(`memoized[currentIndex] = currentValue`). -/
def storeAt (i : Nat) (e : MemoEntry A) (s : St A) : St A :=
  { s with memo := s.memo.map (fun c => { c with memoized := listSetPad c.memoized i e }) }

/-- The callback that `memoizeWitness` wraps around `compute`
(provable.ts lines 236-251).  With no active memoization record it is
`compute` itself.  Otherwise it looks up the slot at the current cursor:
a populated slot is reused verbatim, bypassing `compute`; an empty slot
makes it run `compute`, convert the resulting field elements to
constants, recompute auxiliary data and store the pair.  Either way the
cursor advances and the value is rebuilt from the cached pair. -/
def memoComputeBody (pt : ProvableType T A) (compute : St A → Except Err T × St A)
    (st : St A) : Except Err T × St A :=
  match st.memo with
  | none => compute st
  | some context =>
    let currentIndex := context.currentIndex
    match context.memoized.getD currentIndex none with
    | some currentValue =>
      (.ok (pt.fromFields currentValue.fields (some currentValue.aux)), advanceCursor st)
    | none =>
      match compute st with
      | (.error e, st') => (.error e, st')
      | (.ok value, st') =>
        let flds := (pt.toFields value).map (Field.toConstant st'.varValues)
        let aux := pt.toAuxiliary (some value)
        let currentValue : MemoEntry A := ⟨flds, aux⟩
        (.ok (pt.fromFields currentValue.fields (some currentValue.aux)),
          advanceCursor (storeAt currentIndex currentValue st'))

/-- `memoizeWitness(type, compute)` (provable.ts lines 234-253): like
`Provable.witness`, but the callback consults the memoization record so
that repeated evaluation passes replay identical witness values. -/
def memoizeWitness (pt : ProvableType T A) (compute : St A → Except Err T × St A)
    (s : St A) : Except Err T × St A :=
  Provable.witness pt (memoComputeBody pt compute) s

/-- Modelled from the spec: `Field.random()` draws the next value from
the backend randomness stream as a constant field element. -/
def fieldRandom (s : St A) : Field × St A :=
  (Field.const (s.rand.headD 0), { s with rand := s.rand.tail })

/-- `getBlindingValue()` (provable.ts lines 255-262): outside a
memoization record, a fresh random field element; inside, the record's
single blinding value, sampled lazily on first request and reused on
every subsequent call within the same record. -/
def getBlindingValue (s : St A) : Field × St A :=
  match s.memo with
  | none => fieldRandom s
  | some context =>
    match context.blindingValue with
    | some bv => (bv, s)
    | none =>
      let (f, s') := fieldRandom s
      (f, { s' with memo := s'.memo.map (fun c => { c with blindingValue := some f }) })

-- provable array combinator

/-- The loop body of `provableArray.fromFields` (provable.ts lines
301-312): split the flat field sequence into `n` chunks of the element
size and reconstruct each element with its optional auxiliary entry
(`aux?.[i]`). -/
def arrayFromFields (pt : ProvableType T A) (n : Nat) (fields : List Field)
    (aux : Option (List A)) : List T :=
  match n with
  | 0 => []
  | m + 1 =>
    pt.fromFields (fields.take pt.sizeInFields) (aux.bind (fun l => l.get? 0)) ::
      arrayFromFields pt m (fields.drop pt.sizeInFields) (aux.map List.tail)

/-- `Provable.array(elementType, length)` (provable.ts lines 266-317,
core descriptor fields): the descriptor for fixed-length homogeneous
sequences.  `sizeInFields` multiplies the element size by the length;
`toFields` concatenates per-element serializations in order;
`toAuxiliary` maps the element auxiliary function, defaulting missing
elements to the absent-value placeholder; `fromFields` splits the flat
sequence into equal chunks; `check` applies the element check to all
`length` entries. -/
def provableArray (pt : ProvableType T A) (length : Nat) : ProvableType (List T) (List A) :=
  { sizeInFields := pt.sizeInFields * length
    toFields := fun array => (array.map pt.toFields).flatten
    toAuxiliary := fun array? =>
      match array? with
      | none => (List.replicate length (none : Option T)).map pt.toAuxiliary
      | some array => array.map (fun e => pt.toAuxiliary (some e))
    fromFields := fun fields aux => arrayFromFields pt length fields aux
    check := fun array => (List.range length).all (fun i => pt.check (array.getD i (pt.fromFields [] none))) }

/-- `provableArray.toJSON` (provable.ts lines 321-326): probe the element
descriptor for the optional JSON encoder; fail with the descriptive
error when it is missing, otherwise encode per element. -/
def provableArrayToJSON (pt : ProvableExtended T A J) (array : List T) :
    Except String (List J) :=
  match pt.toJSON? with
  | none => .error "circuitArray.toJSON: element type has no toJSON method"
  | some toJSON => .ok (array.map toJSON)

/-- `provableArray.fromJSON` (provable.ts lines 331-338): probe the
element descriptor for the optional JSON decoder; fail with the
descriptive error when it is missing, otherwise decode per element. -/
def provableArrayFromJSON (pt : ProvableExtended T A J) (json : List J) :
    Except String (List T) :=
  match pt.fromJSON? with
  | none => .error "circuitArray.fromJSON: element type has no fromJSON method"
  | some fromJSON => .ok (json.map fromJSON)

/-- `provableArray.toInput` (provable.ts lines 339-347): probe the
element descriptor for the optional hash-input encoder; fail with the
descriptive error when it is missing, otherwise fold the per-element
encodings together with `HashInput.append` starting from the empty
input. -/
def provableArrayToInput (pt : ProvableExtended T A J) (array : List T) :
    Except String HashInputData :=
  match pt.toInput? with
  | none => .error "circuitArray.toInput: element type has no toInput method"
  | some toInput =>
    .ok (array.foldl (fun curr value => HashInputData.append curr (toInput value))
      HashInputData.empty)

-- constraint system analyzer

/-- One gate as emitted by the backend in JSON form: a type tag, wire
connectivity, and coefficients as raw byte arrays. -/
structure JsonGate where
  typ : String
  wires : List (Nat × Nat)
  coeffs : List (List Nat)
deriving DecidableEq, Repr

/-- The backend's JSON description of a constraint system. -/
structure CSJson where
  gates : List JsonGate
  public_input_size : Nat
deriving DecidableEq, Repr

/-- One decoded gate: the type tag and wires are preserved, and each
coefficient is a decimal string. -/
structure Gate where
  typ : String
  wires : List (Nat × Nat)
  coeffs : List String
deriving DecidableEq, Repr

/-- Modelled from the spec: `bytesToBigInt` reconstructs the unsigned
integer encoded by a little-endian coefficient byte array. -/
def bytesToBigInt (bytes : List Nat) : Nat :=
  bytes.foldr (fun b acc => b + acc * 256) 0

/-- `gatesFromJson(cs)` (provable.ts lines 204-214): decode each gate,
keeping the type tag and wires, and replacing every raw byte-encoded
coefficient by the decimal-string representation of the unsigned integer
it encodes. -/
def gatesFromJson (cs : CSJson) : Nat × List Gate :=
  let gates := cs.gates.map (fun g =>
    { typ := g.typ, wires := g.wires,
      coeffs := g.coeffs.map (fun coefficient => Nat.repr (bytesToBigInt coefficient)) })
  (cs.public_input_size, gates)

/-- The record returned by `Provable.constraintSystem`. -/
structure CSResult (T : Type) where
  rows : Nat
  digest : String
  result : T
  gates : List Gate
  publicInputSize : Nat

/-- `Provable.constraintSystem(f)` (provable.ts lines 167-180): run `f`
inside a frame flagged `inAnalyze` and `inCheckedComputation` and
assemble the backend row count, digest, the result of `f` and the
decoded gate list.  The backend symbolic-execution primitive
`Snarky.constraintSystem` is external; its recorded output (row count,
digest, gate JSON) enters as the argument `backendOut`, while `f` itself
is run on the entered frame. -/
def Provable.constraintSystem (f : St A → T × St A) (backendOut : Nat × String × CSJson)
    (s : St A) : CSResult T × St A :=
  let s1 := pushCtx { inAnalyze := true, inCheckedComputation := true } s
  let (result, s2) := f s1
  let (rows, digest, json) := backendOut
  let (publicInputSize, gates) := gatesFromJson json
  ({ rows := rows, digest := digest, result := result, gates := gates,
     publicInputSize := publicInputSize }, popCtx s2)

-- two-pass evaluation of memoized witness sequences

/-- Lift a callback that draws from a fresh random source (a pure
function of the randomness stream) into a state callback: it consumes
randomness and touches nothing else, and never throws. -/
def liftRand (f : List Nat → T × List Nat) : St A → Except Err T × St A :=
  fun st =>
    let (v, r) := f st.rand
    (.ok v, { st with rand := r })

/-- Run an ordered sequence of `memoizeWitness(type, compute)` calls,
collecting the per-call results. -/
def runMemoSeq (pt : ProvableType T A) (fs : List (List Nat → T × List Nat))
    (s : St A) : List (Except Err T) × St A :=
  match fs with
  | [] => ([], s)
  | f :: rest =>
    let (r, s') := memoizeWitness pt (liftRand f) s
    let (rs, s'') := runMemoSeq pt rest s'
    (r :: rs, s'')

/-- The memoization entries a first (storing) pass creates: for each
call in order, run its callback on the current randomness stream and
record the constant-converted field elements with the auxiliary data. -/
def passEntries (pt : ProvableType T A) (fs : List (List Nat → T × List Nat))
    (rand : List Nat) (varVals : List Nat) : List (MemoEntry A) × List Nat :=
  match fs with
  | [] => ([], rand)
  | f :: rest =>
    let (v, r') := f rand
    let e : MemoEntry A := ⟨(pt.toFields v).map (Field.toConstant varVals),
      pt.toAuxiliary (some v)⟩
    let (es, r'') := passEntries pt rest r' varVals
    (e :: es, r'')

/-- The result a memoized call produces from a cache slot: a populated
slot yields the value rebuilt from the cached pair (cloned by the
enclosing witness); reading an empty slot cannot happen on a replay
pass. -/
def cachedResult (pt : ProvableType T A) (slot : Option (MemoEntry A)) : Except Err T :=
  match slot with
  | some e => .ok (clone pt (pt.fromFields e.fields (some e.aux)))
  | none => .error .checkFailed

/-- Whether a `Provable.witness` call at this state takes the direct
(cloning) path: outside checked computation, or already inside a witness
block. -/
def witnessShort (s : St A) : Bool :=
  !inCheckedComputationS s || (currentCtx s).inWitnessBlock

-- concrete instances used by the witness theorems

/-- A concrete scalar descriptor with one field element and no auxiliary
data, used to exercise the generic theorems. -/
def fieldScalar : ProvableType Field Unit :=
  { sizeInFields := 1
    toFields := fun v => [v]
    toAuxiliary := fun _ => ()
    fromFields := fun l _ => l.headD (Field.const 0)
    check := fun _ => true }

/-- A concrete state whose current frame is inside checked computation
and not inside a witness block. -/
def stChecked : St Unit :=
  { ctxStack := [{ inCheckedComputation := true }]
    nextVar := 0
    varValues := []
    memo := none
    rand := [] }

/-- A concrete state with no active frame (outside checked
computation). -/
def stPlain : St Unit :=
  { ctxStack := []
    nextVar := 0
    varValues := []
    memo := none
    rand := [] }

/-- A concrete state carrying a fresh memoization record: no stored
slots, cursor at zero, blinding value not yet sampled. -/
def stMemoFresh : St Unit :=
  { ctxStack := []
    nextVar := 0
    varValues := []
    memo := some ⟨[], 0, none⟩
    rand := [4, 9] }

/-- A concrete extended scalar descriptor lacking every optional
capability. -/
def fieldScalarBare : ProvableExtended Field Unit Nat :=
  { fieldScalar with toJSON? := none, fromJSON? := none, toInput? := none }

/-- A concrete extended scalar descriptor carrying every optional
capability. -/
def fieldScalarFull : ProvableExtended Field Unit Nat :=
  { fieldScalar with
    toJSON? := some (fieldValue [])
    fromJSON? := some Field.const
    toInput? := some (fun v => ⟨[v], []⟩) }

/-- A concrete one-call sequence drawing one random value. -/
def randCall : List Nat → Field × List Nat :=
  fun r => (Field.const (r.headD 0), r.tail)

/-- A concrete state for the replay pass: the record produced by running
`randCall` once under `stMemoFresh` (one stored slot), cursor reset to
zero, and a different randomness stream. -/
def stMemoReplay : St Unit :=
  { ctxStack := []
    nextVar := 0
    varValues := []
    memo := some ⟨[some ⟨[Field.const 4], ()⟩], 0, none⟩
    rand := [9] }

/-- C3: outside checked computation, or when the current frame already
has `inWitnessBlock` set, `witness(T, () => v)` invokes the callback
directly and returns its result canonicalized through
`toFields`/`toAuxiliary`/`fromFields`; under the element round-trip law
the returned value equals `v`, and the state — context stack, backend
variable allocator, memoization record — is left untouched: no frame is
entered, no variable is allocated, no check constraint is emitted. -/
theorem witness_direct_path (pt : ProvableType T A) (v : T) (s : St A)
    (hshort : witnessShort s = true)
    (hrt : pt.fromFields (pt.toFields v) (some (pt.toAuxiliary (some v))) = v) :
    Provable.witness pt (fun st => (.ok v, st)) s = (.ok v, s) := by
  have h : (!inCheckedComputationS s || (currentCtx s).inWitnessBlock) = true := hshort
  simp [Provable.witness, h, Except.map, clone, hrt]

/-- Witness for C3 at a concrete scalar descriptor, value and state. -/
theorem witness_direct_path_instance :
    Provable.witness fieldScalar (fun st => (.ok (Field.const 7), st)) stPlain
      = (.ok (Field.const 7), stPlain) :=
  witness_direct_path fieldScalar (Field.const 7) stPlain (by decide) rfl

/-- Unfolding of `Provable.witness` on the checked-computation branch:
the nested `inWitnessBlock` frame is entered, the callback runs, and the
frame is popped before the error or the rebuilt value is returned. -/
lemma witness_checked_eq (pt : ProvableType T A) (compute : St A → Except Err T × St A)
    (s : St A) (hin : inCheckedComputationS s = true)
    (hwb : (currentCtx s).inWitnessBlock = false) :
    Provable.witness pt compute s =
      match compute (pushCtx { currentCtx s with inWitnessBlock := true } s) with
      | (.error e, s2) => (.error e, popCtx s2)
      | (.ok proverValue, s2) =>
        let vars := (allocVars pt.sizeInFields (pt.toFields proverValue) s2).1
        let s4 := popCtx (allocVars pt.sizeInFields (pt.toFields proverValue) s2).2
        let value := pt.fromFields vars (some (pt.toAuxiliary (some proverValue)))
        if pt.check value then (.ok value, s4) else (.error .checkFailed, s4) := by
  have hcond : (!inCheckedComputationS s || (currentCtx s).inWitnessBlock) = false := by
    simp [hin, hwb]
  simp only [Provable.witness, hcond, Bool.false_eq_true, if_false]

/-- C4: a `witness(type, compute)` call that enters the nested
`inWitnessBlock` frame leaves it on every exit path before returning:
for any callback that is balanced with respect to the context stack, the
final stack equals the initial one, and when the callback throws, the
error propagates unchanged with the frame already unwound. -/
theorem witness_unwinds_frame (pt : ProvableType T A)
    (compute : St A → Except Err T × St A) (s : St A)
    (hin : inCheckedComputationS s = true)
    (hwb : (currentCtx s).inWitnessBlock = false)
    (hbal : ∀ st, ((compute st).2).ctxStack = st.ctxStack) :
    ((Provable.witness pt compute s).2).ctxStack = s.ctxStack ∧
    (∀ e, (compute (pushCtx { currentCtx s with inWitnessBlock := true } s)).1 = .error e →
      (Provable.witness pt compute s).1 = .error e) := by
  rw [witness_checked_eq pt compute s hin hwb]
  have hstack := hbal (pushCtx { currentCtx s with inWitnessBlock := true } s)
  rcases hc : compute (pushCtx { currentCtx s with inWitnessBlock := true } s) with ⟨r, s2⟩
  rw [hc] at hstack
  simp only [pushCtx] at hstack
  constructor
  · cases r with
    | error e => simp [popCtx, hstack]
    | ok pv =>
      simp only [apply_ite]
      split <;> simp [popCtx, allocVars, hstack]
  · intro e he
    cases r with
    | error e' =>
      simp only at he
      cases he
      rfl
    | ok pv => simp at he

/-- Witness for C4 at a concrete descriptor, a throwing callback and a
checked-computation state. -/
theorem witness_unwinds_frame_instance :
    ((Provable.witness fieldScalar
        (fun st => (.error (.userError "boom"), st)) stChecked).2).ctxStack
      = stChecked.ctxStack ∧
    (Provable.witness fieldScalar
        (fun st => (.error (.userError "boom"), st)) stChecked).1
      = .error (.userError "boom") := by
  have h := witness_unwinds_frame fieldScalar
    (fun st => (.error (.userError "boom"), st)) stChecked rfl rfl (fun st => rfl)
  exact ⟨h.1, h.2 (.userError "boom") rfl⟩

/-- C2: inside checked computation (and not already inside a witness
block), a `witness(T, compute)` call that returns normally yields a
value on which `check` did not fail; the value is rebuilt from exactly
`sizeInFields` backend-allocated field elements, and — under the
descriptor contract that `toFields` always produces `sizeInFields`
elements — its serialized field count is exactly `sizeInFields`. -/
theorem witness_checked_returns_checked (pt : ProvableType T A)
    (compute : St A → Except Err T × St A) (s : St A) (v : T)
    (hsize : ∀ w, (pt.toFields w).length = pt.sizeInFields)
    (hin : inCheckedComputationS s = true)
    (hwb : (currentCtx s).inWitnessBlock = false)
    (hok : (Provable.witness pt compute s).1 = .ok v) :
    pt.check v = true ∧ (pt.toFields v).length = pt.sizeInFields ∧
    ∃ flds auxv, flds.length = pt.sizeInFields ∧ v = pt.fromFields flds auxv := by
  rw [witness_checked_eq pt compute s hin hwb] at hok
  rcases hc : compute (pushCtx { currentCtx s with inWitnessBlock := true } s) with ⟨r, s2⟩
  rw [hc] at hok
  cases r with
  | error e => simp at hok
  | ok pv =>
    simp only [apply_ite] at hok
    split at hok
    · next hchk =>
      simp only [Except.ok.injEq] at hok
      subst hok
      refine ⟨hchk, hsize _, (allocVars pt.sizeInFields (pt.toFields pv) s2).1,
        some (pt.toAuxiliary (some pv)), ?_, rfl⟩
      simp [allocVars]
    · simp at hok

/-- Witness for C2 at a concrete scalar descriptor and state inside
checked computation. -/
theorem witness_checked_returns_checked_instance :
    fieldScalar.check (Field.varIdx 0) = true ∧
    (fieldScalar.toFields (Field.varIdx 0)).length = fieldScalar.sizeInFields ∧
    ∃ flds auxv, flds.length = fieldScalar.sizeInFields ∧
      Field.varIdx 0 = fieldScalar.fromFields flds auxv :=
  witness_checked_returns_checked fieldScalar
    (fun st => (.ok (Field.const 7), st)) stChecked (Field.varIdx 0)
    (fun _ => rfl) rfl rfl rfl

/-- C9: the blinding value of a memoization record is sampled at most
once, on the first `getBlindingValue()` call within the record's scope:
when the record already holds a blinding value, the call returns it and
changes nothing; and after any first call, every subsequent call returns
that same field value without touching the state again. -/
theorem getBlindingValue_sampled_once (s : St A) (c : MemoCtx A)
    (hm : s.memo = some c) :
    (∀ bv, c.blindingValue = some bv → getBlindingValue s = (bv, s)) ∧
    getBlindingValue ((getBlindingValue s).2) =
      ((getBlindingValue s).1, (getBlindingValue s).2) := by
  constructor
  · intro bv hbv
    simp [getBlindingValue, hm, hbv]
  · cases hbv : c.blindingValue with
    | some bv => simp [getBlindingValue, hm, hbv]
    | none => simp [getBlindingValue, hm, hbv, fieldRandom]


/-- Witness for C9 at a concrete record whose blinding value is not yet
sampled. -/
theorem getBlindingValue_sampled_once_instance :
    getBlindingValue ((getBlindingValue stMemoFresh).2) =
      ((getBlindingValue stMemoFresh).1, (getBlindingValue stMemoFresh).2) :=
  (getBlindingValue_sampled_once stMemoFresh ⟨[], 0, none⟩ rfl).2

/-- C10: with no active memoization record, `memoizeWitness(type,
compute)` is extensionally equal to `Provable.witness(type, compute)`:
the wrapped callback reduces to `compute` itself, so no cache slot is
read or written and no cursor advances. -/
theorem memoizeWitness_no_record (pt : ProvableType T A)
    (compute : St A → Except Err T × St A) (s : St A) (hm : s.memo = none) :
    memoizeWitness pt compute s = Provable.witness pt compute s := by
  have h1 : memoComputeBody pt compute s = compute s := by
    simp [memoComputeBody, hm]
  have h2 : memoComputeBody pt compute
      (pushCtx { currentCtx s with inWitnessBlock := true } s) =
      compute (pushCtx { currentCtx s with inWitnessBlock := true } s) := by
    simp [memoComputeBody, pushCtx, hm]
  by_cases hshort : (!inCheckedComputationS s || (currentCtx s).inWitnessBlock) = true
  · simp only [memoizeWitness, Provable.witness, hshort, if_true, h1]
  · simp only [Bool.not_eq_true] at hshort
    simp only [memoizeWitness, Provable.witness, hshort, Bool.false_eq_true, if_false, h2]

/-- Witness for C10 at a concrete descriptor, callback and record-free
state. -/
theorem memoizeWitness_no_record_instance :
    memoizeWitness fieldScalar (fun st => (.ok (Field.const 3), st)) stPlain =
      Provable.witness fieldScalar (fun st => (.ok (Field.const 3), st)) stPlain :=
  memoizeWitness_no_record fieldScalar (fun st => (.ok (Field.const 3), st)) stPlain rfl

/-- Flattening the per-element serializations of a sequence whose
elements each serialize to `sizeInFields` field elements yields
`length * sizeInFields` elements. -/
lemma length_flatten_toFields (pt : ProvableType T A)
    (hlen : ∀ v, (pt.toFields v).length = pt.sizeInFields) :
    ∀ xs : List T, ((xs.map pt.toFields).flatten).length = xs.length * pt.sizeInFields := by
  intro xs
  induction xs with
  | nil => simp
  | cons x xs ih =>
    simp [ih, hlen x, Nat.succ_mul, Nat.add_comm]

/-- C6: the array combinator's declared size is the element size times
the length, and serializing any sequence of that length yields exactly
that many field elements, the per-element serializations concatenated in
order. -/
theorem provableArray_size (pt : ProvableType T A) (n : Nat)
    (hlen : ∀ v, (pt.toFields v).length = pt.sizeInFields) :
    (provableArray pt n).sizeInFields = n * pt.sizeInFields ∧
    (∀ xs : List T, xs.length = n →
      ((provableArray pt n).toFields xs).length = n * pt.sizeInFields) ∧
    (∀ xs : List T, (provableArray pt n).toFields xs = (xs.map pt.toFields).flatten) := by
  refine ⟨Nat.mul_comm _ _, ?_, fun xs => rfl⟩
  intro xs hxs
  have h := length_flatten_toFields pt hlen xs
  simpa [provableArray, hxs] using h

/-- Witness for C6 at the concrete scalar descriptor and a concrete
3-element sequence. -/
theorem provableArray_size_instance :
    (provableArray fieldScalar 3).sizeInFields = 3 * fieldScalar.sizeInFields ∧
    ((provableArray fieldScalar 3).toFields
        [Field.const 1, Field.const 2, Field.const 3]).length
      = 3 * fieldScalar.sizeInFields := by
  have h := provableArray_size fieldScalar 3 (fun _ => rfl)
  exact ⟨h.1, h.2.1 [Field.const 1, Field.const 2, Field.const 3] rfl⟩

/-- C7: each optional capability of the array combinator is probed on
the element descriptor: a missing method makes the array operation fail
immediately with the descriptive error naming that method, while a
present method is delegated to per element with no such failure. -/
theorem provableArray_optional_capabilities (pt : ProvableExtended T A J)
    (array : List T) (json : List J) :
    (pt.toJSON? = none → provableArrayToJSON pt array =
      .error "circuitArray.toJSON: element type has no toJSON method") ∧
    (∀ f, pt.toJSON? = some f → provableArrayToJSON pt array = .ok (array.map f)) ∧
    (pt.fromJSON? = none → provableArrayFromJSON pt json =
      .error "circuitArray.fromJSON: element type has no fromJSON method") ∧
    (∀ g, pt.fromJSON? = some g → provableArrayFromJSON pt json = .ok (json.map g)) ∧
    (pt.toInput? = none → provableArrayToInput pt array =
      .error "circuitArray.toInput: element type has no toInput method") ∧
    (∀ f, pt.toInput? = some f → provableArrayToInput pt array =
      .ok (array.foldl (fun curr value => HashInputData.append curr (f value))
        HashInputData.empty)) := by
  refine ⟨fun h => ?_, fun f h => ?_, fun h => ?_, fun g h => ?_, fun h => ?_, fun f h => ?_⟩
  all_goals simp [provableArrayToJSON, provableArrayFromJSON, provableArrayToInput, h]


/-- Witness for C7: the probe fails with the descriptive message on the
capability-free descriptor and delegates per element on the full one. -/
theorem provableArray_optional_capabilities_instance :
    provableArrayToJSON fieldScalarBare [Field.const 1] =
      .error "circuitArray.toJSON: element type has no toJSON method" ∧
    provableArrayToJSON fieldScalarFull [Field.const 1] = .ok [1] := by
  constructor
  · exact (provableArray_optional_capabilities fieldScalarBare [Field.const 1] []).1 rfl
  · exact (provableArray_optional_capabilities fieldScalarFull [Field.const 1] []).2.1
      (fieldValue []) rfl

/-- C8: `constraintSystem(f)` runs `f` on a frame whose `inAnalyze` and
`inCheckedComputation` flags are both set, and returns the backend's row
count, its digest, the result `f` produced on that frame, and the gate
list decoded gate-for-gate: the type tag and wires are preserved and
every raw byte-encoded unsigned-integer coefficient becomes the decimal
string of the integer those bytes encode, in the same order and number. -/
theorem constraintSystem_spec (f : St A → T × St A) (rows : Nat) (digest : String)
    (json : CSJson) (s : St A) :
    (inAnalyzeS (pushCtx { inAnalyze := true, inCheckedComputation := true } s) = true ∧
     inCheckedComputationS
       (pushCtx { inAnalyze := true, inCheckedComputation := true } s) = true) ∧
    (Provable.constraintSystem f (rows, digest, json) s).1.result =
      (f (pushCtx { inAnalyze := true, inCheckedComputation := true } s)).1 ∧
    (Provable.constraintSystem f (rows, digest, json) s).1.rows = rows ∧
    (Provable.constraintSystem f (rows, digest, json) s).1.digest = digest ∧
    (Provable.constraintSystem f (rows, digest, json) s).1.gates =
      json.gates.map (fun g =>
        { typ := g.typ, wires := g.wires,
          coeffs := g.coeffs.map (fun coefficient =>
            Nat.repr (bytesToBigInt coefficient)) }) := by
  refine ⟨⟨rfl, rfl⟩, ?_, rfl, rfl, rfl⟩
  simp [Provable.constraintSystem, gatesFromJson]

/-- Splitting the concatenation of per-element serializations back into
chunks of the element size and reconstructing each element recovers the
original sequence, assuming the element descriptor's size and round-trip
laws. -/
lemma arrayFromFields_roundtrip (pt : ProvableType T A)
    (hlen : ∀ v, (pt.toFields v).length = pt.sizeInFields)
    (hrt : ∀ v, pt.fromFields (pt.toFields v) (some (pt.toAuxiliary (some v))) = v) :
    ∀ xs : List T,
      arrayFromFields pt xs.length ((xs.map pt.toFields).flatten)
        (some (xs.map (fun e => pt.toAuxiliary (some e)))) = xs := by
  intro xs
  induction xs with
  | nil => rfl
  | cons x xs ih =>
    simp only [List.map_cons, List.flatten_cons, List.length_cons, arrayFromFields]
    congr 1
    · rw [← hlen x, List.take_left]
      simpa using hrt x
    · rw [← hlen x, List.drop_left]
      simpa using ih

/-- C5: the array combinator satisfies the round-trip law whenever its
element descriptor does: serializing a sequence of the declared length
to fields and auxiliary data and deserializing reconstructs the sequence
element-by-element, in order. -/
theorem provableArray_roundtrip (pt : ProvableType T A) (n : Nat)
    (hlen : ∀ v, (pt.toFields v).length = pt.sizeInFields)
    (hrt : ∀ v, pt.fromFields (pt.toFields v) (some (pt.toAuxiliary (some v))) = v) :
    ∀ xs : List T, xs.length = n →
      (provableArray pt n).fromFields ((provableArray pt n).toFields xs)
        (some ((provableArray pt n).toAuxiliary (some xs))) = xs := by
  intro xs hxs
  subst hxs
  simpa [provableArray] using arrayFromFields_roundtrip pt hlen hrt xs

/-- Witness for C5: the 5-element array of a scalar descriptor with
`sizeInFields = 1` serializes `[1,2,3,4,5]` to exactly those five field
elements in order, and deserializing that output reconstructs
`[1,2,3,4,5]`. -/
theorem provableArray_roundtrip_instance :
    (provableArray fieldScalar 5).toFields
        [Field.const 1, Field.const 2, Field.const 3, Field.const 4, Field.const 5] =
      [Field.const 1, Field.const 2, Field.const 3, Field.const 4, Field.const 5] ∧
    (provableArray fieldScalar 5).fromFields
        ((provableArray fieldScalar 5).toFields
          [Field.const 1, Field.const 2, Field.const 3, Field.const 4, Field.const 5])
        (some ((provableArray fieldScalar 5).toAuxiliary
          (some [Field.const 1, Field.const 2, Field.const 3, Field.const 4,
            Field.const 5]))) =
      [Field.const 1, Field.const 2, Field.const 3, Field.const 4, Field.const 5] :=
  ⟨by decide,
   provableArray_roundtrip fieldScalar 5 (fun _ => rfl) (fun _ => rfl) _ rfl⟩

/-- Unfolding of `Provable.witness` on the direct path: the callback
runs and its result is cloned, with no frame entered and no variable
allocated. -/
lemma witness_short_eq (pt : ProvableType T A) (compute : St A → Except Err T × St A)
    (s : St A) (hshort : witnessShort s = true) :
    Provable.witness pt compute s =
      ((compute s).1.map (fun v => clone pt v), (compute s).2) := by
  have h : (!inCheckedComputationS s || (currentCtx s).inWitnessBlock) = true := hshort
  simp only [Provable.witness, h, if_true]

/-- Assigning one slot past the end of a memoization array appends it. -/
lemma listSetPad_append (l : List (Option α)) (v : α) :
    listSetPad l l.length v = l ++ [some v] := by
  induction l with
  | nil => rfl
  | cons x t ih => simp [listSetPad, ih]

/-- One memoized call on an empty slot at the cursor (taken on the
direct witness path): the callback runs on the randomness stream, the
computed value's fields are converted to constants and stored with the
auxiliary data at the cursor slot, and the cursor advances. -/
lemma memoize_store_step (pt : ProvableType T A) (f : List Nat → T × List Nat)
    (s : St A) (m : List (Option (MemoEntry A))) (c : Nat) (b : Option Field)
    (v : T) (r' : List Nat)
    (hshort : witnessShort s = true) (hm : s.memo = some ⟨m, c, b⟩)
    (hc : m.length = c) (hf : f s.rand = (v, r')) :
    memoizeWitness pt (liftRand f) s =
      (.ok (clone pt (pt.fromFields
          ((pt.toFields v).map (Field.toConstant s.varValues))
          (some (pt.toAuxiliary (some v))))),
       { s with rand := r',
                memo := some ⟨m ++
                  [some ⟨(pt.toFields v).map (Field.toConstant s.varValues),
                         pt.toAuxiliary (some v)⟩], c + 1, b⟩ }) := by
  subst hc
  have hnone : m.getD m.length none = none := List.getD_eq_default _ _ le_rfl
  rw [memoizeWitness, witness_short_eq pt _ s hshort]
  simp only [memoComputeBody, hm, hnone, liftRand, hf, advanceCursor, storeAt,
    Option.map_some, Option.map_some', Except.map, listSetPad_append]

/-- One memoized call on a populated slot at the cursor (taken on the
direct witness path): the cached pair is reused verbatim — the callback
never runs — and the cursor advances. -/
lemma memoize_reuse_step (pt : ProvableType T A) (g : St A → Except Err T × St A)
    (s : St A) (m : List (Option (MemoEntry A))) (c : Nat) (b : Option Field)
    (e : MemoEntry A)
    (hshort : witnessShort s = true) (hm : s.memo = some ⟨m, c, b⟩)
    (he : m.getD c none = some e) :
    memoizeWitness pt g s =
      (.ok (clone pt (pt.fromFields e.fields (some e.aux))),
       { s with memo := some ⟨m, c + 1, b⟩ }) := by
  rw [memoizeWitness, witness_short_eq pt _ s hshort]
  simp only [memoComputeBody, hm, he, advanceCursor, Option.map_some, Option.map_some',
    Except.map]

/-- A storing pass creates one entry per call. -/
lemma passEntries_length (pt : ProvableType T A) :
    ∀ (fs : List (List Nat → T × List Nat)) (rand varVals : List Nat),
      (passEntries pt fs rand varVals).1.length = fs.length := by
  intro fs
  induction fs with
  | nil => intro rand varVals; rfl
  | cons f rest ih =>
    intro rand varVals
    rcases hf : f rand with ⟨v, r'⟩
    simp [passEntries, hf, ih]

/-- A first pass over a record whose slots are exhausted (the array
length equals the cursor) stores the entry list `passEntries` computes,
one slot per call in order, advancing the cursor each time, and returns
each stored value rebuilt from its cached pair. -/
lemma runMemoSeq_pass1 (pt : ProvableType T A) :
    ∀ (fs : List (List Nat → T × List Nat)) (s : St A)
      (m : List (Option (MemoEntry A))) (c : Nat) (b : Option Field),
      witnessShort s = true → s.memo = some ⟨m, c, b⟩ → m.length = c →
      runMemoSeq pt fs s =
        ((passEntries pt fs s.rand s.varValues).1.map
           (fun e => .ok (clone pt (pt.fromFields e.fields (some e.aux)))),
         { s with rand := (passEntries pt fs s.rand s.varValues).2,
                  memo := some ⟨m ++ ((passEntries pt fs s.rand s.varValues).1.map some),
                                c + fs.length, b⟩ }) := by
  intro fs
  induction fs with
  | nil =>
    intro s m c b hshort hm hc
    simp only [runMemoSeq, passEntries, List.map_nil, List.append_nil, List.length_nil,
      Nat.add_zero, ← hm]
  | cons f rest ih =>
    intro s m c b hshort hm hc
    rcases hf : f s.rand with ⟨v, r'⟩
    have hstep := memoize_store_step pt f s m c b v r' hshort hm hc hf
    simp only [runMemoSeq, hstep]
    have ih' := ih
      (St.mk s.ctxStack s.nextVar s.varValues
        (some (MemoCtx.mk
          (m ++ [some (MemoEntry.mk
            ((pt.toFields v).map (Field.toConstant s.varValues))
            (pt.toAuxiliary (some v)))])
          (c + 1) b)) r')
      (m ++ [some (MemoEntry.mk
        ((pt.toFields v).map (Field.toConstant s.varValues))
        (pt.toAuxiliary (some v)))])
      (c + 1) b hshort rfl (by simp [hc])
    rw [ih']
    simp [passEntries, hf, List.append_assoc, Nat.add_assoc, Nat.add_comm,
      Nat.add_left_comm]

/-- A replay pass over a record whose slots at the cursor positions are
all populated reuses each cached pair in cursor order, advances the
cursor once per call, and writes nothing. -/
lemma runMemoSeq_pass2 (pt : ProvableType T A) :
    ∀ (fs : List (List Nat → T × List Nat)) (s : St A)
      (m : List (Option (MemoEntry A))) (c : Nat) (b : Option Field),
      witnessShort s = true → s.memo = some ⟨m, c, b⟩ →
      (∀ k, k < fs.length → (m.getD (c + k) none).isSome = true) →
      runMemoSeq pt fs s =
        ((List.range fs.length).map (fun k => cachedResult pt (m.getD (c + k) none)),
         { s with memo := some ⟨m, c + fs.length, b⟩ }) := by
  intro fs
  induction fs with
  | nil =>
    intro s m c b hshort hm hfill
    simp only [runMemoSeq, List.length_nil, List.range_zero, List.map_nil,
      Nat.add_zero, ← hm]
  | cons f rest ih =>
    intro s m c b hshort hm hfill
    have h0 : (m.getD c none).isSome = true := by
      simpa using hfill 0 (by simp)
    obtain ⟨e, he⟩ := Option.isSome_iff_exists.mp h0
    have hstep := memoize_reuse_step pt (liftRand f) s m c b e hshort hm he
    simp only [runMemoSeq, hstep]
    have ih' := ih { s with memo := some ⟨m, c + 1, b⟩ } m (c + 1) b hshort rfl
      (fun k hk => by
        have := hfill (k + 1) (by simpa using Nat.succ_lt_succ hk)
        simpa [Nat.add_assoc, Nat.add_comm, Nat.add_left_comm] using this)
    rw [ih']
    simp only [List.length_cons, List.range_succ_eq_map, List.map_cons, List.map_map,
      Prod.mk.injEq, List.cons.injEq]
    refine ⟨⟨?_, ?_⟩, ?_⟩
    · have he' : m[c]?.getD none = some e := by simpa [List.getD] using he
      simp [cachedResult, he']
    · apply List.map_congr_left
      intro k _
      have hk1 : c + 1 + k = c + (k + 1) := by omega
      simp [Function.comp, hk1]
    · have hk2 : c + 1 + rest.length = c + (rest.length + 1) := by omega
      simp [hk2]

/-- Every cursor position within the entry count of a fully-populated
record holds a populated slot. -/
lemma getD_map_some_isSome (l : List β) :
    ∀ k, k < l.length → (((l.map some).getD k none).isSome) = true := by
  induction l with
  | nil => intro k hk; simp at hk
  | cons x xs ih =>
    intro k hk
    cases k with
    | zero => simp [List.getD_cons_zero]
    | succ k =>
      simp only [List.map_cons, List.getD_cons_succ]
      exact ih k (by simpa using hk)

/-- Reading a fully-populated record slot by slot in cursor order is the
same as mapping over its entry list. -/
lemma range_map_cached (pt : ProvableType T A) (E : List (MemoEntry A)) :
    (List.range E.length).map (fun k => cachedResult pt ((E.map some).getD k none)) =
      E.map (fun e => cachedResult pt (some e)) := by
  induction E with
  | nil => simp
  | cons e es ih =>
    rw [List.length_cons, List.range_succ_eq_map]
    simp only [List.map_cons, List.map_map, List.getD_cons_zero, Function.comp,
      List.getD_cons_succ]
    exact congrArg (cachedResult pt (some e) :: ·) ih

/-- C1: two evaluation passes that make the identical ordered sequence
of `memoizeWitness(type, compute)` calls under one memoization record
yield field-identical results index-by-index, even though each callback
draws from a fresh random source.  The first pass, starting from an
empty record, stores each computed value as constant-converted fields
plus auxiliary data at the cursor slot and advances the cursor; the
replay pass over the resulting record reuses the cached pair at the same
cursor position, never consuming its own randomness (so `compute` is
bypassed), advancing the cursor and writing no slot. -/
theorem memoizeWitness_two_pass_deterministic (pt : ProvableType T A)
    (fs : List (List Nat → T × List Nat)) (s1 s2 : St A)
    (m1 : List (MemoEntry A)) (b1 b2 : Option Field)
    (hs1 : witnessShort s1 = true) (hs2 : witnessShort s2 = true)
    (hm1 : s1.memo = some ⟨[], 0, b1⟩)
    (hE : m1 = (passEntries pt fs s1.rand s1.varValues).1)
    (hm2 : s2.memo = some ⟨m1.map some, 0, b2⟩) :
    (runMemoSeq pt fs s2).1 = (runMemoSeq pt fs s1).1 ∧
    (runMemoSeq pt fs s2).1.map (Except.map pt.toFields) =
      (runMemoSeq pt fs s1).1.map (Except.map pt.toFields) ∧
    (runMemoSeq pt fs s2).2.rand = s2.rand ∧
    (runMemoSeq pt fs s1).2.memo = some ⟨m1.map some, fs.length, b1⟩ ∧
    (runMemoSeq pt fs s2).2.memo = some ⟨m1.map some, fs.length, b2⟩ := by
  have hp1 := runMemoSeq_pass1 pt fs s1 [] 0 b1 hs1 hm1 rfl
  have hlen : m1.length = fs.length := by
    rw [hE]; exact passEntries_length pt fs s1.rand s1.varValues
  have hfill : ∀ k, k < fs.length → (((m1.map some).getD (0 + k) none).isSome) = true := by
    intro k hk
    rw [Nat.zero_add]
    exact getD_map_some_isSome m1 k (by rw [hlen]; exact hk)
  have hp2 := runMemoSeq_pass2 pt fs s2 (m1.map some) 0 b2 hs2 hm2 hfill
  have hres1 : (runMemoSeq pt fs s1).1 =
      m1.map (fun e => .ok (clone pt (pt.fromFields e.fields (some e.aux)))) := by
    rw [hp1, hE]
  have hres2 : (runMemoSeq pt fs s2).1 =
      m1.map (fun e => .ok (clone pt (pt.fromFields e.fields (some e.aux)))) := by
    rw [hp2]
    simp only [Nat.zero_add]
    have hr : (List.range fs.length).map
        (fun k => cachedResult pt ((m1.map some).getD k none)) =
        m1.map (fun e => cachedResult pt (some e)) := by
      rw [← hlen]
      exact range_map_cached pt m1
    simpa [cachedResult] using hr
  refine ⟨?_, ?_, ?_, ?_, ?_⟩
  · rw [hres1, hres2]
  · rw [hres1, hres2]
  · rw [hp2]
  · rw [hp1, hE]
    simp
  · rw [hp2]
    simp


/-- Witness for C1: the replay pass over the record written by the first
pass returns the same result list although its randomness stream differs
and is left untouched. -/
theorem memoizeWitness_two_pass_deterministic_instance :
    (runMemoSeq fieldScalar [randCall] stMemoReplay).1 =
      (runMemoSeq fieldScalar [randCall] stMemoFresh).1 ∧
    (runMemoSeq fieldScalar [randCall] stMemoReplay).2.rand = stMemoReplay.rand ∧
    (runMemoSeq fieldScalar [randCall] stMemoFresh).2.memo =
      some ⟨[some ⟨[Field.const 4], ()⟩], 1, none⟩ := by
  have h := memoizeWitness_two_pass_deterministic fieldScalar [randCall]
    stMemoFresh stMemoReplay [⟨[Field.const 4], ()⟩] none none
    rfl rfl rfl rfl rfl
  exact ⟨h.1, h.2.2.1, h.2.2.2.1⟩

end Snarkyjs
